import Mathlib

/-!
# Verification of the `ci-deploy` tool (bin/ci-deploy.py)

A shallow embedding of the deployment tool's core logic:

* `hash_files`    — per-path content-hash tuple of a commit tree (`KeyError`
                    on a missing path is modelled by `Option`);
* `find_commits`  — the recursive ancestor traversal yielding matching
                    commit ids, pruned at the first mismatch;
* `workflow_runs` — the paginated run-cache synchronizer with its
                    stop conditions and `finally`-persistence;
* `find_workflow_run` — the run locator scanning the cache in insertion
                    order;
* `artifact_url`  — the artifact resolver;
* `deploy`        — the pipeline combining the above.

Python `dict`s are modelled by insertion-ordered association lists
(`dictInsert` keeps an existing key's position and appends fresh keys,
exactly like CPython dictionaries).  Exceptions are modelled by `Option`
or by explicit result constructors.  The remote feed is modelled as the
linear chain of pages that the `link: next` pagination walks.
-/

/-- A git commit: its id (`hexsha`), its tree (mapping tracked paths to
content hashes, as an association list), and its parent commits.  The
commit graph is modelled as the unfolded tree of parent links, which is
observationally identical for the tool's traversal (the Python code keeps
no visited set and revisits shared ancestors). -/
inductive Commit : Type where
  | mk (hexsha : String) (tree : List (String × String)) (parents : List Commit)

def Commit.hexsha : Commit → String
  | .mk sha _ _ => sha

def Commit.tree : Commit → List (String × String)
  | .mk _ t _ => t

def Commit.parents : Commit → List Commit
  | .mk _ _ ps => ps

/-- Lookup `tree[path]`: `none` models a Python `KeyError`. -/
def treeFind (tree : List (String × String)) (path : String) : Option String :=
  match tree with
  | [] => none
  | (p, h) :: rest => if p = path then some h else treeFind rest path

/-- `hash_files(tree, files)` from the source: the tuple of content hashes
of `files` in path order; `none` models the `KeyError` raised as soon as
one path is absent from the tree. -/
def hash_files (tree : List (String × String)) (files : List String) : Option (List String) :=
  match files with
  | [] => some []
  | path :: rest =>
    match treeFind tree path with
    | none => none
    | some h =>
      match hash_files tree rest with
      | none => none
      | some hs => some (h :: hs)

mutual

/-- `find_commits(commit, files, wanted_hash)` from the source: if the
commit's tuple is absent (`KeyError`) or differs from `wanted`, yield
nothing and do not recurse; otherwise yield the commit's id and recurse
into every parent.  The generator's yield sequence is modelled as a
list. -/
def find_commits (files wanted : List String) : Commit → List String
  | .mk sha tree parents =>
    match hash_files tree files with
    | none => []
    | some h =>
      if h = wanted then sha :: find_commits_list files wanted parents
      else []

/-- The `for parent in commit.parents: yield from ...` loop of
`find_commits`. -/
def find_commits_list (files wanted : List String) : List Commit → List String
  | [] => []
  | c :: rest => find_commits files wanted c ++ find_commits_list files wanted rest

end

mutual

/-- Instrumented `find_commits`: same recursion, returning both the yield
sequence and the list of commits on which `find_commits` was invoked
("visited").  The first component coincides with `find_commits`
(see `find_commits_trace_fst`). -/
def find_commits_trace (files wanted : List String) : Commit → List String × List String
  | .mk sha tree parents =>
    match hash_files tree files with
    | none => ([], [sha])
    | some h =>
      if h = wanted then
        let rec' := find_commits_trace_list files wanted parents
        (sha :: rec'.1, sha :: rec'.2)
      else ([], [sha])

/-- The parent loop of `find_commits_trace`. -/
def find_commits_trace_list (files wanted : List String) : List Commit → List String × List String
  | [] => ([], [])
  | c :: rest =>
    let hd := find_commits_trace files wanted c
    let tl := find_commits_trace_list files wanted rest
    (hd.1 ++ tl.1, hd.2 ++ tl.2)

end

/-- `d` is reachable from `c` by following parent links (including `c`
itself). -/
inductive Reachable : Commit → Commit → Prop where
  | refl (c : Commit) : Reachable c c
  | step (c : Commit) (p d : Commit) (hp : p ∈ c.parents) (h : Reachable p d) :
      Reachable c d

/-- A commit `c` "matches": all tracked paths exist in its tree and the
per-path hash tuple equals `wanted` exactly, in path order. -/
def Matches (files wanted : List String) (c : Commit) : Prop :=
  hash_files c.tree files = some wanted

/-- There is a chain of parent links from `c` down to `d` on which every
commit (including both endpoints) matches. -/
inductive MatchedChain (files wanted : List String) : Commit → Commit → Prop where
  | refl (c : Commit) (h : Matches files wanted c) : MatchedChain files wanted c c
  | step (c p d : Commit) (h : Matches files wanted c) (hp : p ∈ c.parents)
      (hc : MatchedChain files wanted p d) : MatchedChain files wanted c d

/-- Concrete linear history for the spec's scenario: head `X`, intermediate
`Z` differing in the tracked path "conf", deeper ancestor `Y` whose tuple
equals `X`'s. -/
def exY : Commit := .mk "Y" [("app", "a1"), ("conf", "c1")] []

def exZ : Commit := .mk "Z" [("app", "a1"), ("conf", "c2")] [exY]

def exX : Commit := .mk "X" [("app", "a1"), ("conf", "c1")] [exZ]

/-- Crafted history for the pruning scenario: a deeper ancestor `exW` that
would match, behind an intermediate commit `exM` missing the tracked path
"conf". -/
def exW : Commit := .mk "W" [("app", "a1"), ("conf", "c1")] []

def exM : Commit := .mk "M" [("app", "a1")] [exW]

/-- One CI run as it appears in a page of the workflow-runs feed. -/
structure FeedRun where
  id : Nat
  status : String
  conclusion : String
  head_commit_id : String
  html_url : String
  artifacts_url : String
deriving DecidableEq

/-- A cached run: the feed record plus the `_workflow_url` annotation added
by the synchronizer. -/
structure CachedRun where
  run : FeedRun
  workflow_url : String
deriving DecidableEq

/-- The run cache: run id → cached run, insertion-ordered like a CPython
dict (`workflow_runs.pickle` holds one such map). -/
abbrev RunCache := List (Nat × CachedRun)

/-- `k in data` / `data[k]` on the cache. -/
def dictFind (d : RunCache) (k : Nat) : Option CachedRun :=
  match d with
  | [] => none
  | (k', v) :: rest => if k' = k then some v else dictFind rest k

/-- `data[k] = v`: overwrite in place when the key exists (keeping its
position), append otherwise — CPython dict assignment. -/
def dictInsert (d : RunCache) (k : Nat) (v : CachedRun) : RunCache :=
  match d with
  | [] => [(k, v)]
  | (k', v') :: rest =>
    if k' = k then (k, v) :: rest else (k', v') :: dictInsert rest k v

/-- `data.values()` in insertion order. -/
def dictValues (d : RunCache) : List CachedRun :=
  d.map (fun p => p.2)

/-- One fetch of a feed page: an HTTP response carrying its status code,
its `workflow_runs` array and whether a `link: next` relation is present —
or an exception raised during the fetch/parse. -/
inductive PageResult : Type where
  | page (statusCode : Nat) (runs : List FeedRun) (hasNext : Bool)
  | raise
deriving DecidableEq

/-- The `for run in res.json()["workflow_runs"]` body of `workflow_runs`:
set `synced` when a run already cached with status "completed" is
re-encountered (checked before the overwrite), then store the run, tagged
with the profile's feed url, under its id. -/
def processRuns (wfUrl : String) (rs : List FeedRun) (data : RunCache) (synced : Bool) :
    RunCache × Bool :=
  match rs with
  | [] => (data, synced)
  | r :: rest =>
    let known :=
      match dictFind data r.id with
      | some cr => cr.run.status == "completed"
      | none => false
    processRuns wfUrl rest (dictInsert data r.id ⟨r, wfUrl⟩) (synced || known)

/-- Observable outcome of one run of the synchronizer: the map written back
to the cache file by the `finally` block (in every outcome), the number of
page fetches performed, and whether an exception propagated out of the
fetch loop. -/
structure SyncResult where
  persisted : RunCache
  pagesFetched : Nat
  raised : Bool
deriving DecidableEq

/-- The `while not synced` pagination loop of `workflow_runs`, with `data`
the in-memory map so far: stop on a non-200 response (break, page contents
discarded), after a page that re-encountered a known completed run, or
after a page without a next link; an exception stops the loop with the map
as it was. -/
def syncLoop (wfUrl : String) (pages : List PageResult) (data : RunCache) : SyncResult :=
  match pages with
  | [] => ⟨data, 0, false⟩
  | .raise :: _ => ⟨data, 1, true⟩
  | .page st rs hasNext :: rest =>
    if st ≠ 200 then ⟨data, 1, false⟩
    else
      let pr := processRuns wfUrl rs data false
      if pr.2 then ⟨pr.1, 1, false⟩
      else if hasNext then
        let r := syncLoop wfUrl rest pr.1
        ⟨r.persisted, r.pagesFetched + 1, r.raised⟩
      else ⟨pr.1, 1, false⟩

/-- `workflow_runs(profile, session, repo)`: load the prior cache, paginate
from the profile's feed url, and persist the merged map (truncate-and-
rewrite) whether the loop completes, breaks, or raises. -/
def workflow_runs (wfUrl : String) (pages : List PageResult) (prior : RunCache) : SyncResult :=
  syncLoop wfUrl pages prior

/-- One iteration of the `for run in runs.values()` loop of
`find_workflow_run`: `continue` on an unwanted head commit or a foreign
feed tag, log-and-skip pending and failed runs, and remember the run only
`if found is None`. -/
def fwrStep (wfUrl : String) (wanted : List String) (found : Option CachedRun)
    (run : CachedRun) : Option CachedRun :=
  if run.run.head_commit_id ∉ wanted ∨ run.workflow_url ≠ wfUrl then found
  else if run.run.status ≠ "completed" then found
  else if run.run.conclusion ≠ "success" then found
  else
    match found with
    | none => some run
    | some f => some f

/-- `find_workflow_run(profile, runs, wanted_commits)`: scan `runs.values()`
in insertion order, remembering the first completed and successful run among
those with a wanted head commit and the profile's feed tag.  `none` models
the raised `DeployError("Did not find successful matching workflow run.")`. -/
def find_workflow_run (wfUrl : String) (runs : List CachedRun) (wanted : List String) :
    Option CachedRun :=
  runs.foldl (fwrStep wfUrl wanted) none

/-- A run the locator considers at all: wanted head commit and matching
feed tag. -/
def relevantRun (wfUrl : String) (wanted : List String) (r : CachedRun) : Bool :=
  decide (r.run.head_commit_id ∈ wanted) && decide (r.workflow_url = wfUrl)

/-- A run the locator selects: completed with conclusion "success". -/
def successfulRun (r : CachedRun) : Bool :=
  decide (r.run.status = "completed") && decide (r.run.conclusion = "success")

/-- Concrete runs for the locator scenarios: `runA` selectable, `runB` with
an unwanted head commit, `runP` pending, `runF` completed-but-failed. -/
def runA : CachedRun := ⟨⟨1, "completed", "success", "X", "uA", "aA"⟩, "wf"⟩

def runB : CachedRun := ⟨⟨2, "completed", "success", "other", "uB", "aB"⟩, "wf"⟩

def runP : CachedRun := ⟨⟨3, "in_progress", "", "X", "uP", "aP"⟩, "wf"⟩

def runF : CachedRun := ⟨⟨4, "completed", "failure", "X", "uF", "aF"⟩, "wf"⟩

/-- One entry of a run's artifact listing. -/
structure Artifact where
  name : String
  expired : Bool
  archive_download_url : String
deriving DecidableEq

/-- `artifact_url(session, run, name)`: the download url of the first
artifact with the configured name; the Bool records whether the
"Artifact expired." warning was printed.  `none` models the raised
`DeployError("Did not find artifact ...")`. -/
def artifact_url (artifacts : List Artifact) (name : String) : Option (String × Bool) :=
  match artifacts with
  | [] => none
  | a :: rest =>
    if a.name = name then some (a.archive_download_url, a.expired)
    else artifact_url rest name

/-- Outcome of `deploy` up to the remote hand-off: the resolved artifact
url, a `DeployError` message, or an exception propagating out of the cache
sync. -/
inductive DeployResult : Type where
  | ok (url : String)
  | deployError (msg : String)
  | raised
deriving DecidableEq

/-- `deploy(profile, repo, commit, ...)` up to the remote hand-off: compute
the wanted tuple from the TARGET commit's tree, enumerate matching commits
starting from the repository HEAD commit (`repo.head.commit`), sync the run
cache, locate a run, and resolve the artifact url.  `listing` maps a run's
`artifacts_url` to the artifact array its fetch returns.  (`set(...)` on
the matched commits only dedups; membership, the only use, is unchanged.) -/
def deploy (files : List String) (wfUrl artifactName : String)
    (headCommit targetCommit : Commit) (pages : List PageResult)
    (prior : RunCache) (listing : String → List Artifact) : DeployResult :=
  match hash_files targetCommit.tree files with
  | none => .deployError "Commit is missing a required file."
  | some wanted =>
    let wanted_commits := find_commits files wanted headCommit
    let sync := workflow_runs wfUrl pages prior
    if sync.raised then .raised
    else
      match find_workflow_run wfUrl (dictValues sync.persisted) wanted_commits with
      | none => .deployError "Did not find successful matching workflow run."
      | some run =>
        match artifact_url (listing run.run.artifacts_url) artifactName with
        | none => .deployError ("Did not find artifact " ++ artifactName ++ ".")
        | some (url, _) => .ok url

/-- The `workflow_runs` array of a page (empty for a failed fetch). -/
def pageRuns : PageResult → List FeedRun
  | .page _ rs _ => rs
  | .raise => []

/-- A fetch that succeeded with HTTP 200. -/
def pageOk : PageResult → Bool
  | .page st _ _ => st == 200
  | .raise => false

/-- The feed's page chain is linear and finite: every page but the last
carries a next link, the last does not, and no fetch raises. -/
def chainOk : List PageResult → Bool
  | [] => true
  | [.page _ _ hn] => hn == false
  | .page _ _ hn :: p :: rest => hn && chainOk (p :: rest)
  | .raise :: _ => false

/-- A well-formed feed snapshot: all fetches succeed with HTTP 200, the
page chain is linear, and run ids are unique across the feed (each CI run
is one record). -/
def goodFeed (pages : List PageResult) : Prop :=
  pages.all pageOk = true ∧ chainOk pages = true ∧
  ((pages.map pageRuns).flatten.map FeedRun.id).Nodup

/-- The cache produced by merging the pages, in feed order, into an empty
map with all run ids distinct: the tagged entries in feed order. -/
def taggedEntries (wfUrl : String) (pages : List PageResult) : RunCache :=
  (pages.map pageRuns).flatten.map (fun r => (r.id, ⟨r, wfUrl⟩))

/-- Concrete feed runs for the synchronizer scenarios. -/
def frOne : FeedRun := ⟨10, "completed", "success", "X", "u10", "a10"⟩

def frTwo : FeedRun := ⟨11, "in_progress", "", "X2", "u11", "a11"⟩

def frThree : FeedRun := ⟨12, "completed", "failure", "X3", "u12", "a12"⟩

/-- Strong induction over `Commit` via parent membership. -/
theorem Commit.parent_induction {motive : Commit → Prop}
    (h : ∀ sha tree parents, (∀ p ∈ parents, motive p) → motive (Commit.mk sha tree parents)) :
    ∀ c, motive c := by
  have wf : ∀ n (c : Commit), sizeOf c ≤ n → motive c := by
    intro n
    induction n with
    | zero =>
      intro c hc
      cases c with
      | mk sha tree parents => simp at hc
    | succ n ih =>
      intro c hc
      cases c with
      | mk sha tree parents =>
        apply h
        intro p hp
        apply ih
        have h1 : sizeOf p < sizeOf parents := List.sizeOf_lt_of_mem hp
        have h2 : sizeOf parents < sizeOf (Commit.mk sha tree parents) := by
          simp
        omega
  intro c
  exact wf (sizeOf c) c le_rfl

theorem MatchedChain.matches_head {files wanted : List String} {c d : Commit}
    (h : MatchedChain files wanted c d) : Matches files wanted c := by
  cases h <;> assumption

theorem find_commits_trace_list_fst (files wanted : List String) (ps : List Commit)
    (ih : ∀ p ∈ ps, (find_commits_trace files wanted p).1 = find_commits files wanted p) :
    (find_commits_trace_list files wanted ps).1 = find_commits_list files wanted ps := by
  induction ps with
  | nil => rfl
  | cons c rest ihl =>
    simp only [find_commits_trace_list, find_commits_list]
    rw [ih c (by simp), ihl (fun p hp => ih p (by simp [hp]))]

/-- The instrumented traversal yields exactly what `find_commits` yields. -/
theorem find_commits_trace_fst (files wanted : List String) :
    ∀ c, (find_commits_trace files wanted c).1 = find_commits files wanted c := by
  apply Commit.parent_induction
  intro sha tree parents ih
  simp only [find_commits_trace, find_commits]
  cases hh : hash_files tree files with
  | none => rfl
  | some h =>
    by_cases hw : h = wanted
    · simp only [hw, if_true]
      rw [find_commits_trace_list_fst files wanted parents ih]
    · simp [hw]

theorem mem_find_commits_list (files wanted : List String) (ps : List Commit) (s : String) :
    s ∈ find_commits_list files wanted ps ↔
      ∃ p ∈ ps, s ∈ find_commits files wanted p := by
  induction ps with
  | nil => simp [find_commits_list]
  | cons c rest ih => simp [find_commits_list, ih]

theorem mem_find_commits_iff (files wanted : List String) :
    ∀ head, ∀ s : String,
      s ∈ find_commits files wanted head ↔
        ∃ d, MatchedChain files wanted head d ∧ d.hexsha = s := by
  apply Commit.parent_induction
  intro sha tree parents ih s
  simp only [find_commits]
  cases hh : hash_files tree files with
  | none =>
    simp only [List.not_mem_nil, false_iff]
    rintro ⟨d, hd, -⟩
    have := hd.matches_head
    rw [Matches, Commit.tree, hh] at this
    exact Option.noConfusion this
  | some h =>
    by_cases hw : h = wanted
    · subst hw
      have hm : Matches files h (Commit.mk sha tree parents) := by
        rw [Matches, Commit.tree]; exact hh
      simp only [if_true, List.mem_cons, mem_find_commits_list]
      constructor
      · rintro (hs | ⟨p, hp, hs⟩)
        · exact ⟨Commit.mk sha tree parents, MatchedChain.refl _ hm, hs.symm⟩
        · obtain ⟨d, hd, rfl⟩ := (ih p hp s).1 hs
          exact ⟨d, MatchedChain.step _ p d hm hp hd, rfl⟩
      · rintro ⟨d, hd, rfl⟩
        cases hd with
        | refl _ _ => exact Or.inl rfl
        | step _ p _ _ hp hc =>
          exact Or.inr ⟨p, hp, (ih p hp _).2 ⟨d, hc, rfl⟩⟩
    · simp only [if_neg hw, List.not_mem_nil, false_iff]
      rintro ⟨d, hd, -⟩
      have := hd.matches_head
      rw [Matches, Commit.tree, hh] at this
      exact absurd (Option.some.inj this) hw

/-- C1 (counterexample): in the linear history `exX → exZ → exY`, the
ancestor `exY` is reachable from the head `exX`, every tracked path exists
in `exY`'s tree and its hash tuple equals the wanted tuple exactly, yet
`exY` is NOT in the matched set produced by the commit matcher — the
traversal is pruned at the mismatching intermediate commit `exZ`, so the
claim's "if" direction (and its scenario "the matched set includes both X
and Y") is false on the code. -/
theorem C1_counterexample :
    Reachable exX exY ∧
    hash_files exY.tree ["app", "conf"] = some ["a1", "c1"] ∧
    find_commits ["app", "conf"] ["a1", "c1"] exX = ["X"] ∧
    "Y" ∉ find_commits ["app", "conf"] ["a1", "c1"] exX := by
  refine ⟨?_, by decide, by decide, by decide⟩
  exact Reachable.step _ exZ _ (by simp [exX, Commit.parents])
    (Reachable.step _ exY _ (by simp [exZ, Commit.parents]) (Reachable.refl _))

/-- C1 (amended): a commit id `s` is in the matched set produced by the
commit matcher if and only if some commit `d` with `d.hexsha = s` is
connected to the head by a chain of parent links on which EVERY commit
(head, `d`, and all commits in between) has all tracked paths present and
per-path hash tuple exactly equal to the wanted tuple.  (The claim's
"every reachable C whose tuple matches is in the set" fails: matching
ancestors behind a mismatching commit are pruned away.) -/
theorem C1_matched_iff (files wanted : List String) (head : Commit) (s : String) :
    s ∈ find_commits files wanted head ↔
      ∃ d, MatchedChain files wanted head d ∧ d.hexsha = s :=
  mem_find_commits_iff files wanted head s

/-- C2: whenever a visited commit's tracked-path tuple is absent or differs
from the wanted tuple, the traversal rooted there yields nothing, and the
only commit visited on that branch is the failing commit itself — no parent
is visited. -/
theorem C2_pruning (files wanted : List String) (c : Commit)
    (h : hash_files c.tree files ≠ some wanted) :
    find_commits files wanted c = [] ∧
    find_commits_trace files wanted c = ([], [c.hexsha]) := by
  cases c with
  | mk sha tree parents =>
    rw [Commit.tree] at h
    constructor
    · rw [find_commits]
      cases hh : hash_files tree files with
      | none => rfl
      | some hs =>
        have : hs ≠ wanted := fun e => h (by rw [hh, e])
        simp [this]
    · rw [find_commits_trace]
      cases hh : hash_files tree files with
      | none => rfl
      | some hs =>
        have : hs ≠ wanted := fun e => h (by rw [hh, e])
        simp [this, Commit.hexsha]

/-- C2 witness: the crafted history `exM → exW` where the deeper ancestor
`exW` would match but the intermediate `exM` is missing the tracked path
"conf": the traversal of `exM` yields nothing and visits only `exM`. -/
theorem C2_pruning_witness :
    hash_files exM.tree ["app", "conf"] ≠ some ["a1", "c1"] ∧
    (find_commits ["app", "conf"] ["a1", "c1"] exM = [] ∧
     find_commits_trace ["app", "conf"] ["a1", "c1"] exM = ([], ["M"])) :=
  ⟨by decide, C2_pruning ["app", "conf"] ["a1", "c1"] exM (by decide)⟩

theorem fwrStep_some (wfUrl : String) (wanted : List String) (f : CachedRun) (r : CachedRun) :
    fwrStep wfUrl wanted (some f) r = some f := by
  unfold fwrStep
  split
  · rfl
  split
  · rfl
  split
  · rfl
  rfl

theorem fwr_foldl_some (wfUrl : String) (wanted : List String) (rs : List CachedRun)
    (f : CachedRun) : rs.foldl (fwrStep wfUrl wanted) (some f) = some f := by
  induction rs with
  | nil => rfl
  | cons r rest ih => rw [List.foldl_cons, fwrStep_some, ih]

theorem fwrStep_none (wfUrl : String) (wanted : List String) (r : CachedRun) :
    fwrStep wfUrl wanted none r =
      if relevantRun wfUrl wanted r && successfulRun r then some r else none := by
  unfold fwrStep relevantRun successfulRun
  by_cases h1 : r.run.head_commit_id ∉ wanted ∨ r.workflow_url ≠ wfUrl
  · rw [if_pos h1]
    rcases h1 with h | h <;> simp [h]
  · rw [if_neg h1]
    push_neg at h1
    obtain ⟨hm, hu⟩ := h1
    by_cases h2 : r.run.status ≠ "completed"
    · rw [if_pos h2]
      simp [h2, hm, hu]
    · rw [if_neg h2]
      push_neg at h2
      by_cases h3 : r.run.conclusion ≠ "success"
      · rw [if_pos h3]
        simp [h2, h3, hm, hu]
      · rw [if_neg h3]
        push_neg at h3
        simp [h2, h3, hm, hu]

theorem find_workflow_run_eq_find (wfUrl : String) (wanted : List String) :
    ∀ rs : List CachedRun,
      find_workflow_run wfUrl rs wanted =
        rs.find? (fun r => relevantRun wfUrl wanted r && successfulRun r) := by
  intro rs
  induction rs with
  | nil => rfl
  | cons r rest ih =>
    unfold find_workflow_run at ih ⊢
    rw [List.foldl_cons, fwrStep_none]
    by_cases hp : (relevantRun wfUrl wanted r && successfulRun r) = true
    · rw [if_pos hp, fwr_foldl_some, List.find?_cons]
      simp only [hp]
    · rw [if_neg hp, List.find?_cons]
      simp only [Bool.not_eq_true] at hp
      simp only [hp]
      exact ih

theorem find_and_eq_filter_find {α : Type} (p q : α → Bool) (l : List α) :
    l.find? (fun a => p a && q a) = (l.filter p).find? q := by
  induction l with
  | nil => rfl
  | cons a l ih =>
    by_cases hp : p a = true
    · rw [List.filter_cons_of_pos hp, List.find?_cons, List.find?_cons]
      by_cases hq : q a = true
      · simp only [hp, hq, Bool.and_self]
      · simp only [Bool.not_eq_true] at hq
        simp only [hp, hq, Bool.and_false]
        exact ih
    · simp only [Bool.not_eq_true] at hp
      rw [List.filter_cons_of_neg (by simp [hp]), List.find?_cons]
      simp only [hp, Bool.false_and]
      exact ih

/-- C3: the run locator scans the cached runs in iteration order and
returns precisely the first run whose head commit id is in the wanted set,
whose feed tag equals the profile's feed, whose status is "completed" and
whose conclusion is "success" — skipping (but continuing past) every other
run; it returns `none` (the "no matching run" `DeployError`) exactly when
no cached run satisfies all of this. -/
theorem C3_run_locator (wfUrl : String) (wanted : List String) (rs : List CachedRun) :
    find_workflow_run wfUrl rs wanted =
      rs.find? (fun r => relevantRun wfUrl wanted r && successfulRun r) ∧
    (find_workflow_run wfUrl rs wanted = none ↔
      ∀ r ∈ rs, ¬(relevantRun wfUrl wanted r = true ∧ successfulRun r = true)) := by
  refine ⟨find_workflow_run_eq_find wfUrl wanted rs, ?_⟩
  rw [find_workflow_run_eq_find wfUrl wanted rs, List.find?_eq_none]
  constructor
  · intro h r hr hand
    have := h r hr
    simp [hand.1, hand.2] at this
  · intro h r hr
    simp only [Bool.and_eq_true]
    exact h r hr

/-- C9: the locator's selection depends only on the subsequence of cached
runs whose head commit id is in the wanted set and whose feed tag matches
the profile — two caches agreeing on that subsequence select the same run,
so adding or removing runs with unwanted head commits or foreign feed tags
never changes the selection. -/
theorem C9_noninterference (wfUrl : String) (wanted : List String)
    (rs1 rs2 : List CachedRun)
    (h : rs1.filter (relevantRun wfUrl wanted) = rs2.filter (relevantRun wfUrl wanted)) :
    find_workflow_run wfUrl rs1 wanted = find_workflow_run wfUrl rs2 wanted := by
  rw [find_workflow_run_eq_find, find_workflow_run_eq_find,
    find_and_eq_filter_find (relevantRun wfUrl wanted) successfulRun,
    find_and_eq_filter_find (relevantRun wfUrl wanted) successfulRun, h]

/-- C9 witness: dropping `runB` (head commit outside the wanted set) from
the cache leaves the filtered subsequence, and hence the selected run,
unchanged; the scan also skips the pending `runP` and failed `runF` in
favor of the successful `runA`. -/
theorem C9_noninterference_witness :
    ([runB, runP, runF, runA].filter (relevantRun "wf" ["X"]) =
      [runP, runF, runA].filter (relevantRun "wf" ["X"])) ∧
    find_workflow_run "wf" [runB, runP, runF, runA] ["X"] =
      find_workflow_run "wf" [runP, runF, runA] ["X"] ∧
    find_workflow_run "wf" [runP, runF, runA] ["X"] = some runA :=
  ⟨by decide, C9_noninterference "wf" ["X"] _ _ (by decide), by decide⟩

/-- C7: the artifact resolver returns the download url of the first listed
artifact whose name equals the configured name — including when that entry
is expired, in which case the Bool component records the printed
"Artifact expired." warning and the url is still returned; it returns
`none` (the "Did not find artifact" `DeployError`) exactly when no entry
has the configured name. -/
theorem C7_artifact_resolver (artifacts : List Artifact) (name : String) :
    artifact_url artifacts name =
      (artifacts.find? (fun a => decide (a.name = name))).map
        (fun a => (a.archive_download_url, a.expired)) ∧
    (artifact_url artifacts name = none ↔ ∀ a ∈ artifacts, a.name ≠ name) := by
  have key : artifact_url artifacts name =
      (artifacts.find? (fun a => decide (a.name = name))).map
        (fun a => (a.archive_download_url, a.expired)) := by
    induction artifacts with
    | nil => rfl
    | cons a rest ih =>
      rw [artifact_url, List.find?_cons]
      by_cases h : a.name = name
      · simp [h]
      · simp only [if_neg h, decide_eq_false h]
        exact ih
  refine ⟨key, ?_⟩
  rw [key]
  simp [List.find?_eq_none]

/-- C8: when any tracked path of the profile is absent from the target
commit's tree, `deploy` fails with the "missing required file"
`DeployError` — uniformly in the head commit, the feed and the cache,
since the error is raised before the ancestor traversal, the cache sync
and the run lookup. -/
theorem C8_missing_file (files : List String) (wfUrl artifactName : String)
    (headCommit targetCommit : Commit) (pages : List PageResult)
    (prior : RunCache) (listing : String → List Artifact)
    (h : hash_files targetCommit.tree files = none) :
    deploy files wfUrl artifactName headCommit targetCommit pages prior listing =
      .deployError "Commit is missing a required file." := by
  unfold deploy
  rw [h]

/-- C8 witness: the commit `exM` lacks the tracked path "conf", so deploying
it fails with the missing-required-file error. -/
theorem C8_missing_file_witness :
    hash_files exM.tree ["app", "conf"] = none ∧
    deploy ["app", "conf"] "wf" "art" exX exM [] [] (fun _ => []) =
      .deployError "Commit is missing a required file." :=
  ⟨by decide,
    C8_missing_file ["app", "conf"] "wf" "art" exX exM [] [] (fun _ => []) (by decide)⟩

theorem dictFind_dictInsert_same (d : RunCache) (k : Nat) (v : CachedRun) :
    dictFind (dictInsert d k v) k = some v := by
  induction d with
  | nil => simp [dictInsert, dictFind]
  | cons p rest ih =>
    obtain ⟨k', v'⟩ := p
    rw [dictInsert]
    by_cases h : k' = k
    · rw [if_pos h, dictFind, if_pos rfl]
    · rw [if_neg h, dictFind, if_neg h]
      exact ih

theorem dictFind_dictInsert_other (d : RunCache) (k k' : Nat) (v : CachedRun)
    (h : k ≠ k') : dictFind (dictInsert d k v) k' = dictFind d k' := by
  induction d with
  | nil => simp [dictInsert, dictFind, h]
  | cons p rest ih =>
    obtain ⟨k0, v0⟩ := p
    rw [dictInsert]
    by_cases h0 : k0 = k
    · rw [if_pos h0, dictFind, if_neg h, dictFind, h0, if_neg h]
    · rw [if_neg h0, dictFind, dictFind]
      by_cases h1 : k0 = k'
      · rw [if_pos h1, if_pos h1]
      · rw [if_neg h1, if_neg h1]
        exact ih

theorem dictFind_dictInsert_isSome (d : RunCache) (k k' : Nat) (v : CachedRun)
    (h : (dictFind d k').isSome = true) :
    (dictFind (dictInsert d k v) k').isSome = true := by
  by_cases hk : k = k'
  · rw [hk, dictFind_dictInsert_same]
    rfl
  · rw [dictFind_dictInsert_other d k k' v hk]
    exact h

theorem processRuns_fst_preserves (wfUrl : String) (rs : List FeedRun) :
    ∀ (data : RunCache) (synced : Bool) (k : Nat),
      (dictFind data k).isSome = true →
      (dictFind (processRuns wfUrl rs data synced).1 k).isSome = true := by
  induction rs with
  | nil => intro data synced k h; exact h
  | cons r rest ih =>
    intro data synced k h
    rw [processRuns]
    exact ih _ _ k (dictFind_dictInsert_isSome data r.id k _ h)

theorem processRuns_fst_mem (wfUrl : String) (rs : List FeedRun) :
    ∀ (data : RunCache) (synced : Bool) (r : FeedRun), r ∈ rs →
      (dictFind (processRuns wfUrl rs data synced).1 r.id).isSome = true := by
  induction rs with
  | nil => intro _ _ r h; exact absurd h (List.not_mem_nil r)
  | cons r0 rest ih =>
    intro data synced r h
    rw [processRuns]
    rcases List.mem_cons.1 h with h | h
    · subst h
      exact processRuns_fst_preserves wfUrl rest _ _ _
        (by rw [dictFind_dictInsert_same]; rfl)
    · exact ih _ _ r h

theorem syncLoop_persisted_preserves (wfUrl : String) :
    ∀ (pages : List PageResult) (data : RunCache) (k : Nat),
      (dictFind data k).isSome = true →
      (dictFind (syncLoop wfUrl pages data).persisted k).isSome = true := by
  intro pages
  induction pages with
  | nil => intro data k h; exact h
  | cons p rest ih =>
    intro data k h
    cases p with
    | raise => exact h
    | page st rs hasNext =>
      rw [syncLoop]
      by_cases hst : st ≠ 200
      · rw [if_pos hst]
        exact h
      · rw [if_neg hst]
        simp only
        by_cases hs : (processRuns wfUrl rs data false).2 = true
        · simp only [hs, if_true]
          exact processRuns_fst_preserves wfUrl rs data false k h
        · simp only [Bool.not_eq_true] at hs
          simp only [hs, Bool.false_eq_true, if_false]
          cases hn : hasNext with
          | false => exact processRuns_fst_preserves wfUrl rs data false k h
          | true =>
            simp only [if_true]
            exact ih _ k (processRuns_fst_preserves wfUrl rs data false k h)

theorem syncLoop_persisted_pages (wfUrl : String) :
    ∀ (pages : List PageResult) (data : RunCache) (i : Nat),
      i < (syncLoop wfUrl pages data).pagesFetched →
      ∀ st rs hn, pages[i]? = some (.page st rs hn) → st = 200 →
      ∀ r ∈ rs, (dictFind (syncLoop wfUrl pages data).persisted r.id).isSome = true := by
  intro pages
  induction pages with
  | nil =>
    intro data i hi
    rw [syncLoop] at hi
    exact absurd hi (by simp)
  | cons p rest ih =>
    intro data i hi st rs hn hget hst r hr
    cases p with
    | raise =>
      rw [syncLoop] at hi
      have hi0 : i = 0 := by simpa using hi
      subst hi0
      simp at hget
    | page st0 rs0 hn0 =>
      rw [syncLoop] at hi ⊢
      by_cases h200 : st0 ≠ 200
      · rw [if_pos h200] at hi ⊢
        have hi0 : i = 0 := by simpa using hi
        subst hi0
        simp only [List.getElem?_cons_zero, Option.some.injEq] at hget
        injection hget with e1 e2 e3
        exact absurd (e1.trans hst) h200
      · rw [if_neg h200] at hi ⊢
        simp only at hi ⊢
        by_cases hs : (processRuns wfUrl rs0 data false).2 = true
        · simp only [hs, if_true] at hi ⊢
          have hi0 : i = 0 := by simpa using hi
          subst hi0
          simp only [List.getElem?_cons_zero, Option.some.injEq] at hget
          injection hget with e1 e2 e3
          exact processRuns_fst_mem wfUrl rs0 data false r (e2 ▸ hr)
        · simp only [Bool.not_eq_true] at hs
          simp only [hs, Bool.false_eq_true, if_false] at hi ⊢
          cases hn0 with
          | false =>
            simp only [Bool.false_eq_true, if_false] at hi ⊢
            have hi0 : i = 0 := by simpa using hi
            subst hi0
            simp only [List.getElem?_cons_zero, Option.some.injEq] at hget
            injection hget with e1 e2 e3
            exact processRuns_fst_mem wfUrl rs0 data false r (e2 ▸ hr)
          | true =>
            simp only [if_true] at hi ⊢
            cases i with
            | zero =>
              simp only [List.getElem?_cons_zero, Option.some.injEq] at hget
              injection hget with e1 e2 e3
              exact syncLoop_persisted_preserves wfUrl rest _ r.id
                (processRuns_fst_mem wfUrl rs0 data false r (e2 ▸ hr))
            | succ j =>
              have hj : j < (syncLoop wfUrl rest (processRuns wfUrl rs0 data false).1).pagesFetched := by
                omega
              exact ih _ j hj st rs hn (by simpa using hget) hst r hr

/-- C5: whatever the fetch loop does — complete normally, break on a bad
response or a missing next link, or raise — the map persisted by the
`finally` block (the `persisted` component of the sync result) still
contains every run id of the prior cache and every run id from every page
that was fetched successfully before the stop. -/
theorem C5_sync_durability (wfUrl : String) (pages : List PageResult) (prior : RunCache) :
    (∀ k, (dictFind prior k).isSome = true →
      (dictFind (workflow_runs wfUrl pages prior).persisted k).isSome = true) ∧
    (∀ i, i < (workflow_runs wfUrl pages prior).pagesFetched →
      ∀ st rs hn, pages[i]? = some (.page st rs hn) → st = 200 →
      ∀ r ∈ rs, (dictFind (workflow_runs wfUrl pages prior).persisted r.id).isSome = true) :=
  ⟨fun k h => syncLoop_persisted_preserves wfUrl pages prior k h,
   fun i hi st rs hn hget hst r hr =>
     syncLoop_persisted_pages wfUrl pages prior i hi st rs hn hget hst r hr⟩

/-- C5 witness: a feed whose second fetch raises: the persisted map still
holds the prior entry (id 99) and the run fetched on the first page
(id 10), even though the exception propagates (`raised = true`). -/
theorem C5_sync_durability_witness :
    (workflow_runs "wf" [.page 200 [frOne] true, .raise]
      [(99, ⟨frTwo, "wf"⟩)]).raised = true ∧
    (dictFind (workflow_runs "wf" [.page 200 [frOne] true, .raise]
      [(99, ⟨frTwo, "wf"⟩)]).persisted 99).isSome = true ∧
    (dictFind (workflow_runs "wf" [.page 200 [frOne] true, .raise]
      [(99, ⟨frTwo, "wf"⟩)]).persisted 10).isSome = true := by
  refine ⟨by decide, ?_, ?_⟩
  · exact (C5_sync_durability "wf" [.page 200 [frOne] true, .raise]
      [(99, ⟨frTwo, "wf"⟩)]).1 99 (by decide)
  · exact (C5_sync_durability "wf" [.page 200 [frOne] true, .raise]
      [(99, ⟨frTwo, "wf"⟩)]).2 0 (by decide) 200 [frOne] true (by decide) rfl
      frOne (by decide)

/-- C6: a non-success HTTP status on a page fetch makes the synchronizer
break out of pagination, keeping and persisting exactly the data
accumulated so far (prior cache plus earlier pages, here `prior`), with no
exception raised; in the claim's scenario — empty prior cache, HTTP 500 on
the first page — the sync returns the empty map and the subsequent locate
step inside `deploy` fails with the "no matching run" `DeployError`
instead of crashing. -/
theorem C6_http_soft_degrade (wfUrl : String) (st : Nat) (rs : List FeedRun) (hn : Bool)
    (rest : List PageResult) (prior : RunCache) (h : st ≠ 200) :
    workflow_runs wfUrl (.page st rs hn :: rest) prior = ⟨prior, 1, false⟩ ∧
    ∀ (files : List String) (artifactName : String) (headCommit targetCommit : Commit)
      (listing : String → List Artifact) (w : List String),
      hash_files targetCommit.tree files = some w →
      deploy files wfUrl artifactName headCommit targetCommit
        (.page st rs hn :: rest) [] listing =
        .deployError "Did not find successful matching workflow run." := by
  have key : ∀ d : RunCache, syncLoop wfUrl (.page st rs hn :: rest) d = ⟨d, 1, false⟩ := by
    intro d
    rw [syncLoop, if_pos h]
  refine ⟨key prior, ?_⟩
  intro files artifactName headCommit targetCommit listing w hw
  unfold deploy
  rw [hw]
  simp only [workflow_runs, key]
  rfl

/-- C6 witness: HTTP 500 on the first page with an empty prior cache: the
sync returns the empty map without raising, and `deploy` (here with target
`exY` and head `exX`) fails with the no-matching-run error. -/
theorem C6_http_soft_degrade_witness :
    workflow_runs "wf" [.page 500 [] false] [] = ⟨[], 1, false⟩ ∧
    deploy ["app", "conf"] "wf" "art" exX exY [.page 500 [] false] [] (fun _ => []) =
      .deployError "Did not find successful matching workflow run." := by
  have h := C6_http_soft_degrade "wf" 500 [] false [] [] (by decide)
  exact ⟨h.1, h.2 ["app", "conf"] "art" exX exY (fun _ => []) ["a1", "c1"] (by decide)⟩

theorem find_commits_nil_of_mismatch (files wanted : List String) (c : Commit)
    (h : hash_files c.tree files ≠ some wanted) :
    find_commits files wanted c = [] := by
  cases c with
  | mk sha tree parents =>
    rw [Commit.tree] at h
    rw [find_commits]
    cases hh : hash_files tree files with
    | none => rfl
    | some hs =>
      have hne : hs ≠ wanted := fun e => h (by rw [hh, e])
      simp [hne]

theorem find_workflow_run_wanted_nil (wfUrl : String) (rs : List CachedRun) :
    find_workflow_run wfUrl rs [] = none := by
  rw [find_workflow_run_eq_find, List.find?_eq_none]
  intro r hr
  simp [relevantRun]

/-- C10: `deploy` always starts the ancestor traversal from the
repository's HEAD commit, even when the wanted tuple was computed from an
explicit target commit override; hence when the head's tracked-path tuple
differs from the wanted tuple the matched set is empty, the target commit
itself is excluded, and (when the sync does not raise) the deploy fails
with the no-matching-run error. -/
theorem C10_traversal_from_head (files : List String) (wfUrl artifactName : String)
    (headCommit targetCommit : Commit) (w : List String)
    (h1 : hash_files targetCommit.tree files = some w)
    (h2 : hash_files headCommit.tree files ≠ some w) :
    find_commits files w headCommit = [] ∧
    targetCommit.hexsha ∉ find_commits files w headCommit ∧
    ∀ (pages : List PageResult) (prior : RunCache) (listing : String → List Artifact),
      (workflow_runs wfUrl pages prior).raised = false →
      deploy files wfUrl artifactName headCommit targetCommit pages prior listing =
        .deployError "Did not find successful matching workflow run." := by
  have hnil := find_commits_nil_of_mismatch files w headCommit h2
  refine ⟨hnil, by simp [hnil], ?_⟩
  intro pages prior listing hr
  unfold deploy
  rw [h1]
  simp only [hnil, workflow_runs] at hr ⊢
  simp only [hr, Bool.false_eq_true, if_false, find_workflow_run_wanted_nil]

/-- C10 witness: target `exY` (tuple `["a1", "c1"]`) with head `exZ`
(tuple `["a1", "c2"]`): the matched set is empty, `exY` is excluded, and
deploy fails with the no-matching-run error even over an empty feed. -/
theorem C10_traversal_from_head_witness :
    hash_files exY.tree ["app", "conf"] = some ["a1", "c1"] ∧
    hash_files exZ.tree ["app", "conf"] ≠ some ["a1", "c1"] ∧
    deploy ["app", "conf"] "wf" "art" exZ exY [] [] (fun _ => []) =
      .deployError "Did not find successful matching workflow run." := by
  refine ⟨by decide, by decide, ?_⟩
  exact (C10_traversal_from_head ["app", "conf"] "wf" "art" exZ exY ["a1", "c1"]
    (by decide) (by decide)).2.2 [] [] (fun _ => []) (by decide)

theorem dictInsert_of_notFound (d : RunCache) (k : Nat) (v : CachedRun)
    (h : dictFind d k = none) : dictInsert d k v = d ++ [(k, v)] := by
  induction d with
  | nil => rfl
  | cons p rest ih =>
    obtain ⟨k0, v0⟩ := p
    rw [dictFind] at h
    by_cases hk : k0 = k
    · rw [if_pos hk] at h
      exact Option.noConfusion h
    · rw [if_neg hk] at h
      rw [dictInsert, if_neg hk, ih h, List.cons_append]

theorem dictFind_append_of_none (d e : RunCache) (k : Nat)
    (h : dictFind d k = none) : dictFind (d ++ e) k = dictFind e k := by
  induction d with
  | nil => rfl
  | cons p rest ih =>
    obtain ⟨k0, v0⟩ := p
    rw [dictFind] at h
    by_cases hk : k0 = k
    · rw [if_pos hk] at h
      exact Option.noConfusion h
    · rw [if_neg hk] at h
      rw [List.cons_append, dictFind, if_neg hk]
      exact ih h

theorem dictFind_tagged_none (wfUrl : String) (l : List FeedRun) (k : Nat)
    (h : k ∉ l.map FeedRun.id) :
    dictFind (l.map (fun x => (x.id, ⟨x, wfUrl⟩))) k = none := by
  induction l with
  | nil => rfl
  | cons x rest ih =>
    simp only [List.map_cons, List.mem_cons, not_or] at h
    rw [List.map_cons, dictFind, if_neg (fun e => h.1 e.symm)]
    exact ih h.2

theorem dictFind_tagged_mem (wfUrl : String) (l : List FeedRun) (r : FeedRun)
    (hnd : (l.map FeedRun.id).Nodup) (hr : r ∈ l) :
    dictFind (l.map (fun x => (x.id, ⟨x, wfUrl⟩))) r.id = some ⟨r, wfUrl⟩ := by
  induction l with
  | nil => exact absurd hr (List.not_mem_nil r)
  | cons x rest ih =>
    rw [List.map_cons] at hnd ⊢
    rw [dictFind]
    rcases List.mem_cons.1 hr with h | h
    · subst h
      rw [if_pos rfl]
    · have hne : x.id ≠ r.id := by
        intro e
        exact (List.nodup_cons.1 hnd).1 (e ▸ List.mem_map_of_mem FeedRun.id h)
      rw [if_neg hne]
      exact ih (List.nodup_cons.1 hnd).2 h

theorem dictInsert_self (d : RunCache) (k : Nat) (v : CachedRun)
    (h : dictFind d k = some v) : dictInsert d k v = d := by
  induction d with
  | nil => exact Option.noConfusion h
  | cons p rest ih =>
    obtain ⟨k0, v0⟩ := p
    rw [dictFind] at h
    by_cases hk : k0 = k
    · rw [if_pos hk] at h
      rw [dictInsert, if_pos hk, hk, Option.some.inj h]
    · rw [if_neg hk] at h
      rw [dictInsert, if_neg hk, ih h]

theorem processRuns_fresh (wfUrl : String) :
    ∀ (rs : List FeedRun) (d : RunCache) (s : Bool),
      (rs.map FeedRun.id).Nodup →
      (∀ r ∈ rs, dictFind d r.id = none) →
      processRuns wfUrl rs d s =
        (d ++ rs.map (fun r => (r.id, ⟨r, wfUrl⟩)), s) := by
  intro rs
  induction rs with
  | nil => intro d s _ _; simp [processRuns]
  | cons r rest ih =>
    intro d s hnd hfresh
    rw [processRuns]
    have hdr : dictFind d r.id = none := hfresh r (List.mem_cons_self r rest)
    simp only [hdr, Bool.or_false]
    rw [dictInsert_of_notFound d r.id _ hdr]
    rw [List.map_cons] at hnd
    have hfresh2 : ∀ x ∈ rest, dictFind (d ++ [(r.id, ⟨r, wfUrl⟩)]) x.id = none := by
      intro x hx
      rw [dictFind_append_of_none _ _ _ (hfresh x (List.mem_cons_of_mem r hx))]
      rw [dictFind]
      have hne : r.id ≠ x.id := by
        intro e
        exact (List.nodup_cons.1 hnd).1 (e ▸ List.mem_map_of_mem FeedRun.id hx)
      rw [if_neg hne, dictFind]
    rw [ih _ s (List.nodup_cons.1 hnd).2 hfresh2]
    rw [List.map_cons, List.append_assoc, List.singleton_append]

theorem processRuns_reinsert (wfUrl : String) :
    ∀ (rs : List FeedRun) (d : RunCache) (s : Bool),
      (∀ r ∈ rs, dictFind d r.id = some ⟨r, wfUrl⟩) →
      processRuns wfUrl rs d s =
        (d, s || rs.any (fun r => r.status == "completed")) := by
  intro rs
  induction rs with
  | nil => intro d s _; simp [processRuns]
  | cons r rest ih =>
    intro d s hall
    rw [processRuns]
    have hdr : dictFind d r.id = some ⟨r, wfUrl⟩ := hall r (List.mem_cons_self r rest)
    simp only [hdr]
    rw [dictInsert_self d r.id _ hdr]
    rw [ih d _ (fun x hx => hall x (List.mem_cons_of_mem r hx))]
    rw [List.any_cons, Bool.or_assoc]

theorem syncLoop_first (wfUrl : String) :
    ∀ (pages : List PageResult) (d : RunCache),
      pages.all pageOk = true → chainOk pages = true →
      ((pages.map pageRuns).flatten.map FeedRun.id).Nodup →
      (∀ r ∈ (pages.map pageRuns).flatten, dictFind d r.id = none) →
      syncLoop wfUrl pages d =
        ⟨d ++ taggedEntries wfUrl pages, pages.length, false⟩ := by
  intro pages
  induction pages with
  | nil =>
    intro d _ _ _ _
    simp [syncLoop, taggedEntries]
  | cons p rest ih =>
    intro d hok hchain hnd hfresh
    cases p with
    | raise => exact absurd hchain (by simp [chainOk])
    | page st rs hn =>
      have hokA : pageOk (PageResult.page st rs hn) = true ∧ ∀ x ∈ rest, pageOk x = true := by
        simpa using hok
      have hok2 : rest.all pageOk = true := List.all_eq_true.mpr hokA.2
      have hst : st = 200 := by simpa [pageOk] using hokA.1
      have hflat : ((PageResult.page st rs hn :: rest).map pageRuns).flatten
          = rs ++ (rest.map pageRuns).flatten := by
        simp [pageRuns]
      rw [hflat] at hnd hfresh
      rw [List.map_append] at hnd
      have hnd1 : (rs.map FeedRun.id).Nodup := (List.nodup_append.1 hnd).1
      have hnd2 : ((rest.map pageRuns).flatten.map FeedRun.id).Nodup :=
        (List.nodup_append.1 hnd).2.1
      have hdisj := (List.nodup_append.1 hnd).2.2
      have hfresh1 : ∀ r ∈ rs, dictFind d r.id = none :=
        fun r hr => hfresh r (List.mem_append_left _ hr)
      rw [syncLoop, if_neg (by simp [hst])]
      simp only
      rw [processRuns_fresh wfUrl rs d false hnd1 hfresh1]
      simp only [Bool.false_eq_true, if_false]
      cases rest with
      | nil =>
        have hhn : hn = false := by simpa [chainOk] using hchain
        subst hhn
        simp only [Bool.false_eq_true, if_false]
        simp [taggedEntries, pageRuns]
      | cons q rest2 =>
        obtain ⟨hhn, hcrest⟩ := Bool.and_eq_true_iff.mp (by simpa [chainOk] using hchain)
        subst hhn
        simp only [if_true]
        have hfresh2 : ∀ r ∈ ((q :: rest2).map pageRuns).flatten,
            dictFind (d ++ rs.map (fun r => (r.id, ⟨r, wfUrl⟩))) r.id = none := by
          intro r hr
          rw [dictFind_append_of_none _ _ _ (hfresh r (List.mem_append_right _ hr))]
          refine dictFind_tagged_none wfUrl rs r.id (fun hmem => ?_)
          exact hdisj hmem (List.mem_map_of_mem FeedRun.id hr)
        rw [ih _ hok2 hcrest hnd2 hfresh2]
        simp [taggedEntries, pageRuns, List.append_assoc]

theorem syncLoop_second (wfUrl : String) :
    ∀ (pages : List PageResult) (d : RunCache),
      pages.all pageOk = true → chainOk pages = true →
      (∀ p ∈ pages, ∀ r ∈ pageRuns p, dictFind d r.id = some ⟨r, wfUrl⟩) →
      (syncLoop wfUrl pages d).persisted = d ∧
      (syncLoop wfUrl pages d).raised = false ∧
      (syncLoop wfUrl pages d).pagesFetched ≤ pages.length ∧
      (∀ i st rs hn, pages[i]? = some (.page st rs hn) →
        (∃ r ∈ rs, r.status = "completed") →
        (syncLoop wfUrl pages d).pagesFetched ≤ i + 1) := by
  intro pages
  induction pages with
  | nil =>
    intro d _ _ _
    exact ⟨rfl, rfl, Nat.le_refl 0, fun i st rs hn _ _ => Nat.zero_le _⟩
  | cons p rest ih =>
    intro d hok hchain hall
    cases p with
    | raise => exact absurd hchain (by simp [chainOk])
    | page st0 rs0 hn0 =>
      have hokA : pageOk (PageResult.page st0 rs0 hn0) = true ∧
          ∀ x ∈ rest, pageOk x = true := by
        simpa using hok
      have hok2 : rest.all pageOk = true := List.all_eq_true.mpr hokA.2
      have hst : st0 = 200 := by simpa [pageOk] using hokA.1
      have hall1 : ∀ r ∈ rs0, dictFind d r.id = some ⟨r, wfUrl⟩ :=
        fun r hr => hall _ (List.mem_cons_self _ _) r (by simpa [pageRuns] using hr)
      have hall2 : ∀ q ∈ rest, ∀ r ∈ pageRuns q, dictFind d r.id = some ⟨r, wfUrl⟩ :=
        fun q hq => hall q (List.mem_cons_of_mem _ hq)
      rw [syncLoop, if_neg (by simp [hst])]
      simp only
      rw [processRuns_reinsert wfUrl rs0 d false hall1]
      simp only [Bool.false_or]
      cases hany : rs0.any (fun r => r.status == "completed") with
      | true =>
        simp only [if_true]
        refine ⟨trivial, trivial, by simp only [List.length_cons]; omega, ?_⟩
        intro i st rs hn _ _
        omega
      | false =>
        simp only [Bool.false_eq_true, if_false]
        have hnoc : ¬ ∃ r ∈ rs0, r.status = "completed" := by
          rintro ⟨r, hr, hc⟩
          have : rs0.any (fun r => r.status == "completed") = true :=
            List.any_eq_true.mpr ⟨r, hr, by simp [hc]⟩
          rw [hany] at this
          exact Bool.noConfusion this
        cases rest with
        | nil =>
          have hhn : hn0 = false := by simpa [chainOk] using hchain
          subst hhn
          simp only [Bool.false_eq_true, if_false]
          refine ⟨trivial, trivial, by simp, ?_⟩
          intro i st rs hn hget hex
          cases i with
          | zero =>
            simp only [List.getElem?_cons_zero, Option.some.injEq] at hget
            injection hget with e1 e2 e3
            exact absurd (e2 ▸ hex) hnoc
          | succ j => simp at hget
        | cons q rest2 =>
          obtain ⟨hhn, hcrest⟩ := Bool.and_eq_true_iff.mp (by simpa [chainOk] using hchain)
          subst hhn
          simp only [if_true]
          obtain ⟨ihp, ihr, ihn, ihb⟩ := ih d hok2 hcrest hall2
          refine ⟨ihp, ihr, ?_, ?_⟩
          · simp only [List.length_cons]
            simp only [List.length_cons] at ihn
            omega
          · intro i st rs hn hget hex
            cases i with
            | zero =>
              simp only [List.getElem?_cons_zero, Option.some.injEq] at hget
              injection hget with e1 e2 e3
              exact absurd (e2 ▸ hex) hnoc
            | succ j =>
              have hb := ihb j st rs hn (by simpa using hget) hex
              omega

/-- C4: against an unchanged, well-formed remote feed (all fetches HTTP
200, linear page chain, unique run ids), running the synchronizer a second
time over the map persisted by the first run persists the identical map,
fetches no more pages than the first run, and fetches no page beyond the
first page containing an already-known completed run. -/
theorem C4_sync_idempotent (wfUrl : String) (pages : List PageResult)
    (h : goodFeed pages) :
    (workflow_runs wfUrl pages (workflow_runs wfUrl pages []).persisted).persisted =
      (workflow_runs wfUrl pages []).persisted ∧
    (workflow_runs wfUrl pages (workflow_runs wfUrl pages []).persisted).pagesFetched ≤
      (workflow_runs wfUrl pages []).pagesFetched ∧
    ∀ i st rs hn, pages[i]? = some (.page st rs hn) →
      (∃ r ∈ rs, r.status = "completed") →
      (workflow_runs wfUrl pages
        (workflow_runs wfUrl pages []).persisted).pagesFetched ≤ i + 1 := by
  obtain ⟨hok, hchain, hnd⟩ := h
  have hfresh : ∀ r ∈ (pages.map pageRuns).flatten, dictFind [] r.id = none :=
    fun r _ => rfl
  have h1 : syncLoop wfUrl pages [] =
      ⟨taggedEntries wfUrl pages, pages.length, false⟩ := by
    have hf := syncLoop_first wfUrl pages [] hok hchain hnd hfresh
    simpa using hf
  have hall : ∀ p ∈ pages, ∀ r ∈ pageRuns p,
      dictFind (taggedEntries wfUrl pages) r.id = some ⟨r, wfUrl⟩ := by
    intro p hp r hr
    have hrmem : r ∈ (pages.map pageRuns).flatten :=
      List.mem_flatten.mpr ⟨pageRuns p, List.mem_map_of_mem pageRuns hp, hr⟩
    exact dictFind_tagged_mem wfUrl _ r hnd hrmem
  have h2 := syncLoop_second wfUrl pages (taggedEntries wfUrl pages) hok hchain hall
  simp only [workflow_runs]
  rw [h1]
  exact ⟨h2.1, h2.2.2.1, fun i st rs hn hget hex => h2.2.2.2 i st rs hn hget hex⟩

/-- C4 witness: a two-page feed (pending run on page one, completed run on
page two): the second sync persists the identical map and stops by the
second page, the first page containing a completed run. -/
theorem C4_sync_idempotent_witness :
    goodFeed [.page 200 [frTwo] true, .page 200 [frOne] false] ∧
    (workflow_runs "wf" [.page 200 [frTwo] true, .page 200 [frOne] false]
        (workflow_runs "wf" [.page 200 [frTwo] true, .page 200 [frOne] false]
          []).persisted).persisted =
      (workflow_runs "wf" [.page 200 [frTwo] true, .page 200 [frOne] false] []).persisted ∧
    (workflow_runs "wf" [.page 200 [frTwo] true, .page 200 [frOne] false]
        (workflow_runs "wf" [.page 200 [frTwo] true, .page 200 [frOne] false]
          []).persisted).pagesFetched ≤ 2 := by
  have hg : goodFeed [.page 200 [frTwo] true, .page 200 [frOne] false] :=
    ⟨by decide, by decide, by decide⟩
  have h := C4_sync_idempotent "wf" [.page 200 [frTwo] true, .page 200 [frOne] false] hg
  exact ⟨hg, h.1, h.2.2 1 200 [frOne] false (by decide) (by decide)⟩
